import Mathlib

/-!
Verification of the Task-Analyzer backend core (`backend/tasks/scoring.py` and
`backend/tasks/views.py`) against its natural-language specification.

Numbers are modelled as exact rationals (`ℚ`), calendar dates as integers
(day ordinals, so that Python's `(d1 - d2).days` becomes integer subtraction),
and fallible Python code as `Except`-valued functions.  The ISO-8601 parser of
the Python standard library (`datetime.fromisoformat(...).date()`, an external
collaborator of the repository) is a parameter `p : String → Option Int` of
every definition that parses date strings.
-/

namespace TaskAnalyzer

/-- A Python value reaching a `float(...)` coercion: either a numeric value
(int / float / numeric string, abstracted to its rational value) or a value on
which `float(...)` raises. -/
inductive PyNum where
  | num (q : ℚ)
  | nonNumeric
  deriving DecidableEq

/-- A Python value reaching a date normalisation site: a native
`datetime.date` (abstracted to its day ordinal), a string, or a value of any
other type. -/
inductive DateVal where
  | dateObj (d : Int)
  | strVal (s : String)
  | otherVal
  deriving DecidableEq

/-- Errors that the scoring utilities can raise. -/
inductive ScoreError where
  | invalidDateString (s : String)
  | invalidDateType
  | nonNumericField
  | zeroDivision
  | typeError
  deriving DecidableEq

/-- `float(x)` applied to a field value: yields the numeric value or raises. -/
def pyFloat : PyNum → Except ScoreError ℚ
  | .num q => .ok q
  | .nonNumeric => .error .nonNumericField

/-- `s.split("T", 1)[0]`: the portion of the string before the first literal
`'T'` (the whole string when no `'T'` occurs). -/
def takeBeforeT (s : String) : String :=
  ⟨s.data.takeWhile (fun c => c ≠ 'T')⟩

/-- `_ensure_date` (scoring.py lines 16-36): a `date` instance is returned
unchanged; a string is parsed as full ISO first, then re-parsed from the
portion before `'T'`, and failing both raises `ValueError` carrying the
original string; any other type raises `ValueError`. -/
def _ensure_date (p : String → Option Int) : DateVal → Except ScoreError Int
  | .dateObj d => .ok d
  | .strVal s =>
      match p s with
      | some d => .ok d
      | none =>
          match p (takeBeforeT s) with
          | some d => .ok d
          | none => .error (.invalidDateString s)
  | .otherVal => .error .invalidDateType

/-- `calculate_urgency` (scoring.py lines 39-60), with `today` made an
explicit parameter; `days_left = (due_date - today).days`. -/
def calculate_urgency (today due_date : Int) : ℚ :=
  let days_left := due_date - today
  if days_left < 0 then 10
  else if days_left = 0 then 9
  else if days_left ≤ 3 then 7
  else if days_left ≤ 7 then 5
  else 3

/-- `calculate_effort_score` (scoring.py lines 63-73): a failed `float(...)`
coercion is replaced by `0.0`; the score is `10.0 / (h + 1.0)`, which in
Python raises `ZeroDivisionError` when `h = -1.0`. -/
def calculate_effort_score (hours : PyNum) : Except ScoreError ℚ :=
  let h : ℚ := match hours with | .num q => q | .nonNumeric => 0
  if h + 1 = 0 then .error .zeroDivision else .ok (10 / (h + 1))

theorem ebind_ok {ε α β : Type} (a : α) (f : α → Except ε β) :
    ((Except.ok a : Except ε α) >>= f) = f a := rfl

theorem ebind_error {ε α β : Type} (e : ε) (f : α → Except ε β) :
    ((Except.error e : Except ε α) >>= f) = .error e := rfl

/-- Round-half-to-even to an integer, as Python's builtin `round`. -/
def roundHalfEven (q : ℚ) : Int :=
  let f := ⌊q⌋
  let r := q - (f : ℚ)
  if r < 1/2 then f
  else if 1/2 < r then f + 1
  else if 2 ∣ f then f else f + 1

/-- Python's `round(x, 3)`. -/
def round3 (q : ℚ) : ℚ := (roundHalfEven (q * 1000) : ℚ) / 1000

/-- A (validated) task dictionary.  `none` in an optional field models an
absent key; `dependencies` entries are integers as guaranteed by the
request serializer. -/
structure TaskDict where
  id : Option Int
  title : String
  due_date : DateVal
  estimated_hours : Option PyNum
  importance : Option PyNum
  dependencies : Option (List Int)
  deriving DecidableEq

/-- The `weights` dictionary: each key may be absent. -/
structure Weights where
  urgency : Option ℚ
  importance : Option ℚ
  effort : Option ℚ
  dependency : Option ℚ
  deriving DecidableEq

/-- `calculate_priority` (scoring.py lines 145-173).  Field accesses follow
the source order: `task["due_date"]` is normalised, then
`float(task.get("importance", 1))`, then
`calculate_effort_score(float(task.get("estimated_hours", 0)))`, then
`len(task.get("dependencies") or [])`; the weighted sum is rounded to three
decimals.  `all_tasks` is accepted and ignored exactly as in the source. -/
def calculate_priority (p : String → Option Int) (today : Int)
    (task : TaskDict) (all_tasks : List TaskDict) (weights : Weights) :
    Except ScoreError ℚ := do
  let due ← _ensure_date p task.due_date
  let urgency := calculate_urgency today due
  let importance ← pyFloat (task.importance.getD (.num 1))
  let hours ← pyFloat (task.estimated_hours.getD (.num 0))
  let effort_score ← calculate_effort_score (.num hours)
  let dependency_count : ℚ := ((task.dependencies.getD []).length : ℚ)
  let score :=
    (weights.urgency.getD (4/10)) * urgency
    + (weights.importance.getD (4/10)) * importance
    + (weights.effort.getD (15/100)) * effort_score
    + (weights.dependency.getD (5/100)) * dependency_count
  return round3 score

section ScoringClaims

/-- C5: for every due date and current date, `calculate_urgency` returns
exactly 10.0 when the number of days until due is negative, 9.0 at 0 days,
7.0 at 1-3 days, 5.0 at 4-7 days, and 3.0 at 8 or more days; in particular
every overdue date scores 10.0 regardless of how overdue it is. -/
theorem calculate_urgency_buckets (today due : Int) :
    (due - today < 0 → calculate_urgency today due = 10)
    ∧ (due - today = 0 → calculate_urgency today due = 9)
    ∧ (1 ≤ due - today ∧ due - today ≤ 3 → calculate_urgency today due = 7)
    ∧ (4 ≤ due - today ∧ due - today ≤ 7 → calculate_urgency today due = 5)
    ∧ (8 ≤ due - today → calculate_urgency today due = 3) := by
  refine ⟨fun h => ?_, fun h => ?_, fun h => ?_, fun h => ?_, fun h => ?_⟩ <;>
    · simp only [calculate_urgency]
      split_ifs <;> first | rfl | omega

/-- Witness for C5: the five urgency buckets at concrete dates. -/
theorem calculate_urgency_buckets_witness :
    calculate_urgency 0 (-5) = 10 ∧ calculate_urgency 0 0 = 9
    ∧ calculate_urgency 0 2 = 7 ∧ calculate_urgency 0 6 = 5
    ∧ calculate_urgency 0 11 = 3 :=
  ⟨(calculate_urgency_buckets 0 (-5)).1 (by decide),
   (calculate_urgency_buckets 0 0).2.1 (by decide),
   (calculate_urgency_buckets 0 2).2.2.1 (by decide),
   (calculate_urgency_buckets 0 6).2.2.2.1 (by decide),
   (calculate_urgency_buckets 0 11).2.2.2.2 (by decide)⟩

/-- C8: for hours `0 ≤ h₁ < h₂` the effort score `10.0 / (hours + 1.0)` is
strictly decreasing: both calls succeed and the score at `h₂` is strictly
below the score at `h₁`. -/
theorem calculate_effort_score_strict_decreasing (h₁ h₂ : ℚ)
    (h0 : 0 ≤ h₁) (hlt : h₁ < h₂) :
    ∃ e₁ e₂, calculate_effort_score (.num h₁) = .ok e₁
      ∧ calculate_effort_score (.num h₂) = .ok e₂ ∧ e₂ < e₁ := by
  have p₁ : (0 : ℚ) < h₁ + 1 := by linarith
  have p₂ : (0 : ℚ) < h₂ + 1 := by linarith
  refine ⟨10 / (h₁ + 1), 10 / (h₂ + 1), ?_, ?_, ?_⟩
  · unfold calculate_effort_score
    rw [if_neg (by exact ne_of_gt p₁)]
  · unfold calculate_effort_score
    rw [if_neg (by exact ne_of_gt p₂)]
  · exact div_lt_div_of_pos_left (by norm_num) p₁ (by linarith)

/-- Witness for C8 at hours 0 and 1. -/
theorem calculate_effort_score_strict_decreasing_witness :
    ∃ e₁ e₂, calculate_effort_score (.num 0) = .ok e₁
      ∧ calculate_effort_score (.num 1) = .ok e₂ ∧ e₂ < e₁ :=
  calculate_effort_score_strict_decreasing 0 1 (by norm_num) (by norm_num)

/-- C6: the date normaliser returns a native date unchanged; a string is
first parsed fully, on failure re-parsed from the substring before the first
`'T'`, and if that also fails the error carries the original string; any
other input type fails. -/
theorem ensure_date_spec (p : String → Option Int) :
    (∀ d : Int, _ensure_date p (.dateObj d) = .ok d)
    ∧ (∀ s d, p s = some d → _ensure_date p (.strVal s) = .ok d)
    ∧ (∀ s d, p s = none → p (takeBeforeT s) = some d →
        _ensure_date p (.strVal s) = .ok d)
    ∧ (∀ s, p s = none → p (takeBeforeT s) = none →
        _ensure_date p (.strVal s) = .error (.invalidDateString s))
    ∧ _ensure_date p .otherVal = .error .invalidDateType := by
  refine ⟨fun d => rfl, fun s d h => ?_, fun s d h h' => ?_, fun s h h' => ?_, rfl⟩
  · simp [_ensure_date, h]
  · simp [_ensure_date, h, h']
  · simp [_ensure_date, h, h']

/-- A concrete stand-in for the stdlib ISO parser, accepting one string. -/
def isoStub : String → Option Int :=
  fun s => if s = "2025-01-02" then some 20090 else none

/-- Witness for C6: the parser stub exercises the direct-parse, the
before-`'T'` retry, and the failure branch. -/
theorem ensure_date_spec_witness :
    _ensure_date isoStub (.strVal "2025-01-02") = .ok 20090
    ∧ _ensure_date isoStub (.strVal "2025-01-02T10:00:00") = .ok 20090
    ∧ _ensure_date isoStub (.strVal "nonsense")
        = .error (.invalidDateString "nonsense") :=
  ⟨(ensure_date_spec isoStub).2.1 "2025-01-02" 20090 (by decide),
   (ensure_date_spec isoStub).2.2.1 "2025-01-02T10:00:00" 20090 (by decide)
     (by decide),
   (ensure_date_spec isoStub).2.2.2.1 "nonsense" (by decide) (by decide)⟩

/-- A parser stub that rejects every string (never consulted below). -/
def noParse : String → Option Int := fun _ => none

/-- Empty weights dictionary: every weight falls back to its default. -/
def emptyWeights : Weights := ⟨none, none, none, none⟩

/-- A task whose `estimated_hours` value is present but not numeric. -/
def taskBadHours : TaskDict :=
  { id := none, title := "", due_date := .dateObj 0,
    estimated_hours := some .nonNumeric, importance := some (.num 5),
    dependencies := none }

/-- Counterexample to C2: on a task with a valid due date whose
`estimated_hours` is a non-numeric value, `calculate_priority` raises (the
bare `float(...)` on line 164 runs before `calculate_effort_score`'s guard),
rather than returning a score. -/
theorem calculate_priority_nonNumeric_raises :
    calculate_priority noParse 0 taskBadHours [] emptyWeights
      = .error .nonNumericField := rfl

/-- C2 (amended): `calculate_effort_score` itself substitutes 0 for a
non-numeric hours value, yielding 10.0; but `calculate_priority` coerces
`estimated_hours` and `importance` with an unguarded `float(...)`, so a
present non-numeric value in either field makes it raise instead of
returning a score. -/
theorem calculate_priority_nonNumeric_amended :
    calculate_effort_score .nonNumeric = .ok 10
    ∧ (∀ p today t ts w, t.estimated_hours = some .nonNumeric →
        ∃ e, calculate_priority p today t ts w = .error e)
    ∧ (∀ p today t ts w, t.importance = some .nonNumeric →
        ∃ e, calculate_priority p today t ts w = .error e) := by
  refine ⟨by norm_num [calculate_effort_score], ?_, ?_⟩
  · intro p today t ts w h
    rcases hdue : _ensure_date p t.due_date with e | d
    · exact ⟨e, by simp [calculate_priority, hdue, ebind_error]⟩
    · rcases himp : t.importance.getD (.num 1) with q | _
      · exact ⟨.nonNumericField, by simp [calculate_priority, hdue, himp, h, pyFloat, ebind_ok, ebind_error]⟩
      · exact ⟨.nonNumericField, by simp [calculate_priority, hdue, himp, pyFloat, ebind_ok, ebind_error]⟩
  · intro p today t ts w h
    rcases hdue : _ensure_date p t.due_date with e | d
    · exact ⟨e, by simp [calculate_priority, hdue, ebind_error]⟩
    · exact ⟨.nonNumericField, by simp [calculate_priority, hdue, h, pyFloat, ebind_ok, ebind_error]⟩

/-- Witness for C2 (amended) at the concrete counterexample task. -/
theorem calculate_priority_nonNumeric_amended_witness :
    ∃ e, calculate_priority noParse 0 taskBadHours [] emptyWeights = .error e :=
  calculate_priority_nonNumeric_amended.2.1 noParse 0 taskBadHours [] emptyWeights rfl

/-- C4: for a task whose due date normalises successfully and whose numeric
fields are well formed (hours non-negative per the data model, importance
defaulting to 1 when absent), `calculate_priority` returns exactly
`round3` of the weighted sum with weight defaults 0.4 / 0.4 / 0.15 / 0.05
and the raw (non-deduplicated) dependency count, and the result does not
depend on the `all_tasks` argument. -/
theorem calculate_priority_formula (p : String → Option Int) (today : Int)
    (t : TaskDict) (ts ts' : List TaskDict) (w : Weights)
    (d : Int) (imp hrs : ℚ)
    (hdue : _ensure_date p t.due_date = .ok d)
    (himp : t.importance.getD (.num 1) = .num imp)
    (hhrs : t.estimated_hours.getD (.num 0) = .num hrs)
    (hpos : 0 ≤ hrs) :
    calculate_priority p today t ts w
      = .ok (round3 ((w.urgency.getD (4/10)) * calculate_urgency today d
          + (w.importance.getD (4/10)) * imp
          + (w.effort.getD (15/100)) * (10 / (hrs + 1))
          + (w.dependency.getD (5/100)) * ((t.dependencies.getD []).length : ℚ)))
    ∧ calculate_priority p today t ts w = calculate_priority p today t ts' w := by
  have hne : hrs + 1 ≠ 0 := by
    intro hc
    nlinarith
  constructor
  · simp [calculate_priority, hdue, himp, hhrs, pyFloat, calculate_effort_score, hne, ebind_ok, ebind_error]
  · rfl

/-- A fully well-formed concrete task used in witnesses. -/
def taskGood : TaskDict :=
  { id := none, title := "t", due_date := .dateObj 2,
    estimated_hours := some (.num 2), importance := some (.num 8),
    dependencies := some [3, 3] }

/-- Witness for C4 at a concrete task (raw dependency count 2, weights all
defaulted). -/
theorem calculate_priority_formula_witness :
    calculate_priority noParse 0 taskGood [] emptyWeights
      = .ok (round3 ((4/10) * calculate_urgency 0 2 + (4/10) * 8
          + (15/100) * (10 / (2 + 1)) + (5/100) * ((2 : ℕ) : ℚ)))
    ∧ calculate_priority noParse 0 taskGood [] emptyWeights
      = calculate_priority noParse 0 taskGood [taskGood] emptyWeights :=
  calculate_priority_formula noParse 0 taskGood [] [taskGood] emptyWeights
    2 8 2 rfl rfl rfl (by norm_num)

end ScoringClaims

/-! ### Cycle detection (`detect_circular_dependencies`, scoring.py lines 76-142) -/

/-- Order-preserving deduplication of a dependency list (the `seen_deps`
loop, scoring.py lines 97-104; the `int(d)` coercions cannot fail on
serializer-validated integer entries). -/
def dedupKeepFirst (l : List Int) : List Int :=
  l.foldl (fun acc d => if d ∈ acc then acc else acc ++ [d]) []

/-- `int(t.get("id") or (idx + 1))` (scoring.py line 91): an absent (or
falsy, i.e. zero) id is replaced by the 1-based position. -/
def tidOf (idx : Nat) (t : TaskDict) : Int :=
  match t.id with
  | none => (idx : Int) + 1
  | some v => if v = 0 then (idx : Int) + 1 else v

/-- `graph[tid] = seen_deps` on a Python dict: replace the value at an
existing key in place, otherwise append the binding (insertion order). -/
def upsert (g : List (Int × List Int)) (k : Int) (v : List Int) :
    List (Int × List Int) :=
  match g with
  | [] => [(k, v)]
  | e :: rest => if e.1 = k then (k, v) :: rest else e :: upsert rest k v

/-- The adjacency map built by the first loop of
`detect_circular_dependencies` (scoring.py lines 88-105). -/
def buildGraph (tasks : List TaskDict) : List (Int × List Int) :=
  tasks.enum.foldl
    (fun g it => upsert g (tidOf it.1 it.2)
      (dedupKeepFirst (it.2.dependencies.getD []))) []

/-- `graph.get(node, [])`. -/
def lookupD : List (Int × List Int) → Int → List Int
  | [], _ => []
  | e :: rest, n => if e.1 = n then e.2 else lookupD rest n

/-- `list(graph.keys())`, in insertion order. -/
def keysOf (g : List (Int × List Int)) : List Int := g.map Prod.fst

/-- All node ids that a run can ever touch: keys and dependency values. -/
def univOf (g : List (Int × List Int)) : List Int :=
  keysOf g ++ (g.map Prod.snd).flatten

/-- `stack.index(node)`: index of the first occurrence. -/
def idxOfZ : List Int → Int → Nat
  | [], _ => 0
  | x :: xs, a => if x = a then 0 else idxOfZ xs a + 1

/-- `min(range(len(cycle) - 1), key=lambda i: cycle[i])` applied to the
cycle body: the first index holding the minimum value. -/
def argminIdx : List Int → Nat
  | [] => 0
  | [_] => 0
  | x :: xs =>
      let j := argminIdx xs
      if xs.getD j 0 < x then j + 1 else 0

/-- Cycle canonicalisation (scoring.py lines 118-123): rotate a cycle of
length `> 1` so it starts at its minimal node (the closing repeat excluded)
and close it again; shorter cycles are kept as they are. -/
def canonicalize (cycle : List Int) : List Int :=
  if 1 < cycle.length then
    let body := cycle.dropLast
    let m := argminIdx body
    body.drop m ++ body.take m ++ [body.getD m 0]
  else cycle

/-- The mutable state of the detector: `visited`, the DFS `stack`, the
reported `cycles` and the `seen_cycles` dedup set (sets are modelled as
lists used only through membership). -/
structure DfsState where
  visited : List Int
  stack : List Int
  cycles : List (List Int)
  seen_cycles : List (List Int)
  deriving DecidableEq

/-- The back-edge branch of `dfs` (scoring.py lines 114-128). -/
def recordCycle (node : Int) (s : DfsState) : DfsState :=
  let cycle := s.stack.drop (idxOfZ s.stack node) ++ [node]
  let ordered := canonicalize cycle
  if ordered ∈ s.seen_cycles then s
  else { s with seen_cycles := ordered :: s.seen_cycles,
                cycles := s.cycles ++ [ordered] }

/-- The inner `dfs` (scoring.py lines 112-136).  Python's recursion is
bounded by the `visited` set; the `fuel` argument is an upper bound on the
remaining recursion depth, and `detect_circular_dependencies` supplies
enough fuel for it never to run out (each nesting level permanently marks a
fresh node of `univOf` as visited). -/
def dfs (g : List (Int × List Int)) : Nat → Int → DfsState → DfsState
  | 0, _, s => s
  | fuel + 1, node, s =>
    if node ∈ s.stack then recordCycle node s
    else if node ∈ s.visited then s
    else
      let s1 : DfsState :=
        { s with visited := node :: s.visited, stack := s.stack ++ [node] }
      let s2 := (lookupD g node).foldl (fun acc nb => dfs g fuel nb acc) s1
      { s2 with stack := s2.stack.dropLast }

/-- Recursion depth that can never be exhausted on this graph. -/
def fuelFor (g : List (Int × List Int)) : Nat := (univOf g).dedup.length + 1

/-- `detect_circular_dependencies` (scoring.py lines 76-142): build the
graph, run `dfs` from every not-yet-visited key in insertion order, return
the recorded cycles. -/
def detect_circular_dependencies (tasks : List TaskDict) : List (List Int) :=
  let graph := buildGraph tasks
  let s := (keysOf graph).foldl
    (fun s n => if n ∈ s.visited then s else dfs graph (fuelFor graph) n s)
    ⟨[], [], [], []⟩
  s.cycles

/-- The id every task in a batch ends up with: its explicit id, or its
1-based position when the id is absent (or falsy). -/
def taskIds (tasks : List TaskDict) : List Int :=
  tasks.enum.map (fun it => tidOf it.1 it.2)

section CycleClaimsConcrete

/-- A minimal task carrying just an id and dependencies. -/
def mkTask (i : Int) (deps : List Int) : TaskDict :=
  { id := some i, title := "", due_date := .dateObj 0,
    estimated_hours := some (.num 1), importance := some (.num 1),
    dependencies := some deps }

/-- C1: on the batch `[{id 1, dependencies [1]}]` the detector reports the
self-dependency as the two-element path `[1, 1]` (the back-edge branch
always appends the closing repeat), not as the one-element path `[1]`
promised by the claim and by the function's own docstring. -/
theorem detect_self_dependency_eval :
    detect_circular_dependencies [mkTask 1 [1]] = [[1, 1]] := by decide

/-- Counterexample to C3 as stated: this batch's dependency graph contains
the 3-cycle `1→2→3→1` (edges `1→2`, `2→3`, `3→1` are all present), yet the
detector returns only `[1, 4, 3, 1]`: the traversal reaches node 3 through
`1→4→3` first, so the later edge `2→3` meets an already-finished node and
the cycle `[1,2,3,1]` is never recorded. -/
theorem detect_three_cycle_counterexample :
    detect_circular_dependencies
        [mkTask 1 [4, 2], mkTask 4 [3], mkTask 3 [1], mkTask 2 [3]]
      = [[1, 4, 3, 1]]
    ∧ [1, 2, 3, 1] ∉ detect_circular_dependencies
        [mkTask 1 [4, 2], mkTask 4 [3], mkTask 3 [1], mkTask 2 [3]] := by
  decide

/-- C3 (amended): for a batch consisting exactly of the three tasks
`1→[2]`, `2→[3]`, `3→[1]` in any order, the detector returns exactly one
cycle, the canonical `[1, 2, 3, 1]`, regardless of which node the traversal
starts from. -/
theorem detect_three_cycle_perms (ts : List TaskDict)
    (h : ts.Perm [mkTask 1 [2], mkTask 2 [3], mkTask 3 [1]]) :
    detect_circular_dependencies ts = [[1, 2, 3, 1]] := by
  have hlen := h.length_eq
  rcases ts with _ | ⟨x, _ | ⟨y, _ | ⟨z, _ | ⟨w, tl⟩⟩⟩⟩ <;> simp at hlen
  have hx : x ∈ [mkTask 1 [2], mkTask 2 [3], mkTask 3 [1]] :=
    h.subset (by simp)
  have hy : y ∈ [mkTask 1 [2], mkTask 2 [3], mkTask 3 [1]] :=
    h.subset (by simp)
  have hz : z ∈ [mkTask 1 [2], mkTask 2 [3], mkTask 3 [1]] :=
    h.subset (by simp)
  simp only [List.mem_cons, List.not_mem_nil, or_false] at hx hy hz
  rcases hx with rfl | rfl | rfl <;> rcases hy with rfl | rfl | rfl <;>
    rcases hz with rfl | rfl | rfl <;>
    first
      | exact absurd (h.nodup_iff.mpr (by decide)) (by decide)
      | decide

/-- Witness for C3 (amended) at one concrete ordering. -/
theorem detect_three_cycle_perms_witness :
    detect_circular_dependencies [mkTask 2 [3], mkTask 1 [2], mkTask 3 [1]]
      = [[1, 2, 3, 1]] :=
  detect_three_cycle_perms [mkTask 2 [3], mkTask 1 [2], mkTask 3 [1]]
    (List.Perm.swap _ _ _)

end CycleClaimsConcrete

/-! ### The HTTP views (`views.py`), modelled after serializer validation -/

/-- `DEFAULT_WEIGHTS` (views.py lines 12-17). -/
def DEFAULT_WEIGHTS : Weights :=
  ⟨some (4/10), some (4/10), some (15/100), some (5/100)⟩

/-- `assign_ids` (views.py lines 20-25): give every task missing an `id`
its 1-based position. -/
def assign_ids (tasks : List TaskDict) : List TaskDict :=
  tasks.enum.map (fun it =>
    match it.2.id with
    | none => { it.2 with id := some ((it.1 : Int) + 1) }
    | some _ => it.2)

/-- The loop of `score_tasks`: score each task in order against the whole
batch `all`; the first scoring exception propagates. -/
def score_list (p : String → Option Int) (today : Int) (all : List TaskDict)
    (weights : Weights) : List TaskDict → Except ScoreError (List (TaskDict × ℚ))
  | [] => .ok []
  | t :: ts => do
      let q ← calculate_priority p today t all weights
      let rest ← score_list p today all weights ts
      return (t, q) :: rest

/-- `score_tasks` (views.py lines 28-36): score every task against the
whole batch with the given weights; a scored task is the task paired with
its score.  A scoring exception propagates. -/
def score_tasks (p : String → Option Int) (today : Int)
    (tasks : List TaskDict) (weights : Weights) :
    Except ScoreError (List (TaskDict × ℚ)) :=
  score_list p today tasks weights tasks

/-- The outcome of `AnalyzeTasks.post`: a 400 response carrying the cycles,
an unhandled scoring exception, or the scored list. -/
inductive AnalyzeError where
  | circular (cycles : List (List Int))
  | scoreFailure (e : ScoreError)
  deriving DecidableEq

/-- `AnalyzeTasks.post` (views.py lines 71-86) after validation: assign
ids, reject the whole batch when the detector reports any cycle, otherwise
score every task and sort descending by score (Python's stable `sorted`
with `reverse=True`). -/
def analyze_tasks (p : String → Option Int) (today : Int)
    (tasks : List TaskDict) : Except AnalyzeError (List (TaskDict × ℚ)) :=
  let tasks := assign_ids tasks
  let cycles := detect_circular_dependencies tasks
  if cycles = [] then
    match score_tasks p today tasks DEFAULT_WEIGHTS with
    | .error e => .error (.scoreFailure e)
    | .ok scored => .ok (scored.mergeSort (fun a b => decide (b.2 ≤ a.2)))
  else .error (.circular cycles)

/-- `_parse_date_safe` (views.py lines 39-52): like `_ensure_date` but
returning `None` instead of raising. -/
def _parse_date_safe (p : String → Option Int) : DateVal → Option Int
  | .dateObj d => some d
  | .strVal s =>
      match p s with
      | some d => some d
      | none => p (takeBeforeT s)
  | .otherVal => none

/-- `' · '.join`-style separator join. -/
def joinSep (sep : String) : List String → String
  | [] => ""
  | [s] => s
  | s :: rest => s ++ sep ++ joinSep sep rest

/-- The due-date block of the explanation loop (views.py lines 115-124):
no phrase when the date does not parse, otherwise by `days_left`. -/
def duePhrases (p : String → Option Int) (today : Int) (d : DateVal) :
    List String :=
  match _parse_date_safe p d with
  | none => []
  | some due =>
      let days_left := due - today
      if days_left < 0 then ["Overdue"]
      else if days_left = 0 then ["Due today"]
      else if days_left ≤ 3 then ["Due in " ++ toString days_left ++ " day(s)"]
      else []

/-- `t.get('importance', 0) >= 8` (views.py line 127): raises `TypeError`
on a non-numeric importance value. -/
def impCheck (o : Option PyNum) : Except ScoreError Bool :=
  match o.getD (.num 0) with
  | .num q => .ok (decide (8 ≤ q))
  | .nonNumeric => .error .typeError

/-- The guarded `float(t.get('estimated_hours', 999))` (views.py lines
131-134): any failure falls back to `999.0`. -/
def estOf (hours : Option PyNum) : ℚ :=
  match hours.getD (.num 999) with
  | .num q => q
  | .nonNumeric => 999

/-- The explanation-building loop body of `SuggestTasks.post` (views.py
lines 110-143) for one scored task. -/
def explanation_for (p : String → Option Int) (today : Int) (t : TaskDict) :
    Except ScoreError String := do
  let parts1 := duePhrases p today t.due_date
  let impHigh ← impCheck t.importance
  let parts2 := if impHigh then parts1 ++ ["High importance"] else parts1
  let parts3 :=
    if estOf t.estimated_hours ≤ 2 then parts2 ++ ["Quick win (low effort)"]
    else parts2
  let deps := t.dependencies.getD []
  let parts4 :=
    if deps = [] then parts3
    else parts3 ++ ["Blocks " ++ toString deps.length ++ " task(s)"]
  let joined := joinSep " · " parts4
  return if joined = "" then "Balanced factors" else joined

/-- The importance value the explanation loop compares with 8: an absent
field counts as 0, a non-numeric one has no value (the comparison raises). -/
def importanceViewed : Option PyNum → Option ℚ
  | none => some 0
  | some (.num q) => some q
  | some .nonNumeric => none

/-- The claim's due-date phrase: `Overdue` for negative days, `Due today`
for 0, `Due in N day(s)` for 1 ≤ N ≤ 3, nothing for more than 3 days or an
unavailable date. -/
def specDuePhrases (days : Option Int) : List String :=
  match days with
  | none => []
  | some dl =>
      if dl < 0 then ["Overdue"]
      else if dl = 0 then ["Due today"]
      else if 1 ≤ dl ∧ dl ≤ 3 then ["Due in " ++ toString dl ++ " day(s)"]
      else []

/-- The claim's list of applicable explanation phrases, in the fixed order
due date, importance, effort, dependencies: the due-date phrase,
`High importance` iff importance ≥ 8, `Quick win (low effort)` iff the
hours value is present, numeric and ≤ 2 (missing or unparseable hours
suppress the phrase), and `Blocks N task(s)` iff the raw dependency count
N is ≥ 1. -/
def specPhrases (days : Option Int) (importance : ℚ) (hours : Option PyNum)
    (depCount : Nat) : List String :=
  specDuePhrases days
  ++ (if 8 ≤ importance then ["High importance"] else [])
  ++ (match hours with
      | some (.num h) => if h ≤ 2 then ["Quick win (low effort)"] else []
      | _ => [])
  ++ (if 1 ≤ depCount then ["Blocks " ++ toString depCount ++ " task(s)"] else [])

/-- The claim's explanation string: the applicable phrases joined with
`' · '`, or `Balanced factors` when none apply. -/
def specExplanation (days : Option Int) (importance : ℚ)
    (hours : Option PyNum) (depCount : Nat) : String :=
  if specPhrases days importance hours depCount = [] then "Balanced factors"
  else joinSep " · " (specPhrases days importance hours depCount)

section ExplanationLemmas

theorem ite_append_push {b : Prop} [Decidable b] (X Y : List String) :
    (if b then X ++ Y else X) = X ++ (if b then Y else []) := by
  split <;> simp

theorem ite_append_push' {b : Prop} [Decidable b] (X Y : List String) :
    (if b then X else X ++ Y) = X ++ (if b then [] else Y) := by
  split <;> simp

theorem joinSep_cons (sep s : String) (rest : List String) :
    ∃ u, joinSep sep (s :: rest) = s ++ u := by
  cases rest with
  | nil => exact ⟨"", by simp [joinSep]⟩
  | cons b bs =>
      exact ⟨sep ++ joinSep sep (b :: bs), by simp [joinSep, String.append_assoc]⟩

theorem append_ne_balanced (s u : String) (c : Char) (cs : List Char)
    (hs : s.data = c :: cs) (hc : c ≠ 'B') : s ++ u ≠ "Balanced factors" := by
  intro h
  have h2 := congrArg String.data h
  rw [String.data_append, hs] at h2
  have hB : ("Balanced factors" : String).data = 'B' :: "alanced factors".data := rfl
  rw [hB, List.cons_append] at h2
  injection h2 with h3 _
  exact hc h3

theorem blocks_append_ne_balanced (u : String) :
    ("Blocks " ++ u : String) ≠ "Balanced factors" := by
  intro h
  have h2 := congrArg String.data h
  rw [String.data_append] at h2
  have hBl : ("Blocks " : String).data = 'B' :: 'l' :: "ocks ".data := rfl
  have hB : ("Balanced factors" : String).data
      = 'B' :: 'a' :: "lanced factors".data := rfl
  rw [hBl, hB, List.cons_append, List.cons_append] at h2
  injection h2 with _ h3
  injection h3 with h4 _
  exact absurd h4 (by decide)

theorem append_ne_empty (s u : String) (c : Char) (cs : List Char)
    (hs : s.data = c :: cs) : s ++ u ≠ "" := by
  intro h
  have h2 := congrArg String.data h
  rw [String.data_append, hs, List.cons_append] at h2
  exact List.cons_ne_nil _ _ h2

theorem quickwin_eq (hours : Option PyNum) :
    (if estOf hours ≤ 2 then (["Quick win (low effort)"] : List String) else [])
      = (match hours with
         | some (.num h) => if h ≤ 2 then ["Quick win (low effort)"] else []
         | _ => []) := by
  rcases hours with _ | pn
  · norm_num [estOf]
  · rcases pn with q | _
    · rfl
    · norm_num [estOf]

theorem blocks_eq (deps : List Int) :
    (if deps = [] then ([] : List String)
     else ["Blocks " ++ toString deps.length ++ " task(s)"])
      = (if 1 ≤ deps.length then ["Blocks " ++ toString deps.length ++ " task(s)"]
         else []) := by
  rcases deps with _ | ⟨a, as⟩ <;> simp

theorem specPhrases_head_info (D : Option Int) (i : ℚ) (hours : Option PyNum)
    (N : Nat) :
    ∀ x ∈ specPhrases D i hours N,
      (∃ c cs, x.data = c :: cs ∧ c ≠ 'B') ∨ (∃ u, x = "Blocks " ++ u) := by
  intro x hx
  simp only [specPhrases, List.mem_append] at hx
  rcases hx with ((hx | hx) | hx) | hx
  · rcases D with _ | dl
    · simp [specDuePhrases] at hx
    · simp only [specDuePhrases] at hx
      split_ifs at hx <;> simp at hx
      · subst hx
        exact Or.inl ⟨'O', "verdue".data, rfl, by decide⟩
      · subst hx
        exact Or.inl ⟨'D', "ue today".data, rfl, by decide⟩
      · subst hx
        refine Or.inl ⟨'D', "ue in ".data ++ (toString dl ++ " day(s)").data,
          ?_, by decide⟩
        rw [String.append_assoc, String.data_append]
        rfl
  · split_ifs at hx <;> simp at hx
    subst hx
    exact Or.inl ⟨'H', "igh importance".data, rfl, by decide⟩
  · rw [← quickwin_eq] at hx
    split_ifs at hx <;> simp at hx
    subst hx
    exact Or.inl ⟨'Q', "uick win (low effort)".data, rfl, by decide⟩
  · split_ifs at hx <;> simp at hx
    subst hx
    refine Or.inr ⟨toString N ++ " task(s)", ?_⟩
    rw [String.append_assoc]

theorem join_ne_balanced_of_heads (l : List String)
    (h : ∀ x ∈ l, (∃ c cs, x.data = c :: cs ∧ c ≠ 'B') ∨ (∃ u, x = "Blocks " ++ u))
    (hne : l ≠ []) : joinSep " · " l ≠ "Balanced factors" := by
  rcases l with _ | ⟨s, rest⟩
  · exact absurd rfl hne
  obtain ⟨u, hu⟩ := joinSep_cons " · " s rest
  rw [hu]
  rcases h s (by simp) with ⟨c, cs, hs, hc⟩ | ⟨v, hv⟩
  · exact append_ne_balanced s u c cs hs hc
  · rw [hv, String.append_assoc]
    exact blocks_append_ne_balanced _

theorem join_ne_empty_of_heads (l : List String)
    (h : ∀ x ∈ l, (∃ c cs, x.data = c :: cs ∧ c ≠ 'B') ∨ (∃ u, x = "Blocks " ++ u))
    (hne : l ≠ []) : joinSep " · " l ≠ "" := by
  rcases l with _ | ⟨s, rest⟩
  · exact absurd rfl hne
  obtain ⟨u, hu⟩ := joinSep_cons " · " s rest
  rw [hu]
  rcases h s (by simp) with ⟨c, cs, hs, _⟩ | ⟨v, hv⟩
  · exact append_ne_empty s u c cs hs
  · rw [hv, String.append_assoc]
    exact append_ne_empty _ _ 'B' "locks ".data rfl

theorem duePhrases_eq_spec (p : String → Option Int) (today : Int) (d : DateVal) :
    duePhrases p today d
      = specDuePhrases ((_parse_date_safe p d).map (fun x => x - today)) := by
  rcases hpd : _parse_date_safe p d with _ | due
  · simp [duePhrases, specDuePhrases, hpd]
  · simp only [duePhrases, specDuePhrases, hpd, Option.map_some']
    split_ifs <;> first | rfl | omega

theorem final_if_eq (P : List String)
    (h : ∀ x ∈ P, (∃ c cs, x.data = c :: cs ∧ c ≠ 'B') ∨ (∃ u, x = "Blocks " ++ u)) :
    (if joinSep " · " P = "" then "Balanced factors" else joinSep " · " P)
      = (if P = [] then "Balanced factors" else joinSep " · " P) := by
  rcases P with _ | ⟨s, rest⟩
  · simp [joinSep]
  · rw [if_neg (join_ne_empty_of_heads _ h (List.cons_ne_nil s rest)),
      if_neg (List.cons_ne_nil s rest)]

end ExplanationLemmas

/-- C9: for a scored task (whose importance, having passed validation, is
numeric or absent), the suggest loop builds the explanation by joining, in
the fixed order, exactly the applicable phrases of the claim, and the
explanation is `Balanced factors` exactly when no phrase applies. -/
theorem explanation_matches_spec (p : String → Option Int) (today : Int)
    (t : TaskDict) (i : ℚ) (himp : importanceViewed t.importance = some i) :
    explanation_for p today t
      = .ok (specExplanation ((_parse_date_safe p t.due_date).map (fun d => d - today))
          i t.estimated_hours (t.dependencies.getD []).length)
    ∧ (explanation_for p today t = .ok "Balanced factors"
        ↔ specPhrases ((_parse_date_safe p t.due_date).map (fun d => d - today))
            i t.estimated_hours (t.dependencies.getD []).length = []) := by
  have himpc : impCheck t.importance = .ok (decide (8 ≤ i)) := by
    rcases ht : t.importance with _ | pn
    · rw [ht] at himp
      simp only [importanceViewed, Option.some.injEq] at himp
      subst himp
      rfl
    · rcases pn with q | _
      · rw [ht] at himp
        simp only [importanceViewed, Option.some.injEq] at himp
        subst himp
        rfl
      · rw [ht] at himp
        simp [importanceViewed] at himp
  have hmain : explanation_for p today t
      = .ok (specExplanation ((_parse_date_safe p t.due_date).map (fun d => d - today))
          i t.estimated_hours (t.dependencies.getD []).length) := by
    simp only [explanation_for, himpc, ebind_ok]
    simp only [duePhrases_eq_spec, ite_append_push, ite_append_push',
      decide_eq_true_eq, quickwin_eq, blocks_eq]
    simp only [specExplanation]
    exact congrArg Except.ok
      (final_if_eq
        (specPhrases ((_parse_date_safe p t.due_date).map (fun d => d - today))
          i t.estimated_hours (t.dependencies.getD []).length)
        (specPhrases_head_info ((_parse_date_safe p t.due_date).map
          (fun d => d - today)) i t.estimated_hours
          (t.dependencies.getD []).length))
  refine ⟨hmain, ?_⟩
  rw [hmain]
  constructor
  · intro h
    have h2 : specExplanation ((_parse_date_safe p t.due_date).map (fun d => d - today))
        i t.estimated_hours (t.dependencies.getD []).length = "Balanced factors" := by
      injection h
    by_contra hP
    have hnb := join_ne_balanced_of_heads _
      (specPhrases_head_info ((_parse_date_safe p t.due_date).map (fun d => d - today))
        i t.estimated_hours (t.dependencies.getD []).length) hP
    rw [specExplanation, if_neg hP] at h2
    exact hnb h2
  · intro h
    simp [specExplanation, h]

/-! ### Structural lemmas about the depth-first search -/

section DfsLemmas

theorem foldl_inv {α β : Type} (f : β → α → β) (P : β → Prop)
    (l : List α) (b : β) (h : ∀ x ∈ l, ∀ s, P s → P (f s x)) (hb : P b) :
    P (l.foldl f b) := by
  induction l generalizing b with
  | nil => exact hb
  | cons a as ih =>
      exact ih _ (fun x hx s hs => h x (by simp [hx]) s hs)
        (h a (by simp) b hb)

theorem recordCycle_stack (node : Int) (s : DfsState) :
    (recordCycle node s).stack = s.stack := by
  simp only [recordCycle]
  split_ifs <;> rfl

theorem recordCycle_visited (node : Int) (s : DfsState) :
    (recordCycle node s).visited = s.visited := by
  simp only [recordCycle]
  split_ifs <;> rfl

theorem dfs_stack (g : List (Int × List Int)) :
    ∀ fuel node s, (dfs g fuel node s).stack = s.stack := by
  intro fuel
  induction fuel with
  | zero => intro node s; rfl
  | succ fuel ih =>
      intro node s
      simp only [dfs]
      split_ifs with h1 h2
      · exact recordCycle_stack node s
      · rfl
      · have hfold : ((lookupD g node).foldl (fun acc nb => dfs g fuel nb acc)
            { s with visited := node :: s.visited,
                     stack := s.stack ++ [node] }).stack = s.stack ++ [node] :=
          foldl_inv (fun acc nb => dfs g fuel nb acc)
            (fun s' => s'.stack = s.stack ++ [node]) (lookupD g node)
            { s with visited := node :: s.visited, stack := s.stack ++ [node] }
            (fun x _ s' hs' => by
              show (dfs g fuel x s').stack = s.stack ++ [node]
              rw [ih x s', hs']) rfl
        simp only [hfold, List.dropLast_concat]

theorem dfs_visited_mono (g : List (Int × List Int)) :
    ∀ fuel node s x, x ∈ s.visited → x ∈ (dfs g fuel node s).visited := by
  intro fuel
  induction fuel with
  | zero => intro node s x hx; exact hx
  | succ fuel ih =>
      intro node s x hx
      simp only [dfs]
      split_ifs with h1 h2
      · rw [recordCycle_visited]; exact hx
      · exact hx
      · exact foldl_inv (fun acc nb => dfs g fuel nb acc)
          (fun s' => x ∈ s'.visited) (lookupD g node)
          { s with visited := node :: s.visited, stack := s.stack ++ [node] }
          (fun nb _ s' hs' => ih nb s' x hs') (by simp [hx])

theorem argminIdx_lt_length : ∀ l : List Int, l ≠ [] → argminIdx l < l.length := by
  intro l
  induction l with
  | nil => intro h; exact absurd rfl h
  | cons x xs ih =>
      intro _
      rcases xs with _ | ⟨y, ys⟩
      · simp [argminIdx]
      · simp only [argminIdx]
        split_ifs
        · have := ih (by simp)
          simp only [List.length_cons] at this ⊢
          omega
        · simp

theorem canonicalize_subset (c : List Int) : ∀ x ∈ canonicalize c, x ∈ c := by
  intro x hx
  simp only [canonicalize] at hx
  split_ifs at hx with hlen
  · have hbody : c.dropLast ≠ [] := by
      intro h
      have := congrArg List.length h
      simp [List.length_dropLast] at this
      omega
    have hm := argminIdx_lt_length c.dropLast hbody
    have hsub : ∀ y ∈ c.dropLast, y ∈ c := fun y hy =>
      (List.dropLast_sublist c).subset hy
    simp only [List.mem_append, List.mem_singleton] at hx
    rcases hx with (hx | hx) | hx
    · exact hsub x (List.drop_subset _ _ hx)
    · exact hsub x (List.take_subset _ _ hx)
    · subst hx
      have : c.dropLast.getD (argminIdx c.dropLast) 0 ∈ c.dropLast := by
        rw [List.getD_eq_getElem _ _ hm]
        exact List.getElem_mem _
      exact hsub _ this
  · exact hx

theorem lookupD_ne_nil_mem_keys (g : List (Int × List Int)) (n : Int)
    (h : lookupD g n ≠ []) : n ∈ keysOf g := by
  induction g with
  | nil => exact absurd rfl h
  | cons e rest ih =>
      simp only [lookupD] at h
      by_cases he : e.1 = n
      · simp [keysOf, he.symm]
      · rw [if_neg he] at h
        simp only [keysOf, List.map_cons, List.mem_cons]
        exact Or.inr (ih h)

theorem lookupD_mem_keys (g : List (Int × List Int)) (n nb : Int)
    (h : nb ∈ lookupD g n) : n ∈ keysOf g :=
  lookupD_ne_nil_mem_keys g n (by intro hnil; rw [hnil] at h; exact absurd h (List.not_mem_nil nb))

/-- All reported cycles mention only keys of the adjacency map. -/
def cyclesKeys (g : List (Int × List Int)) (s : DfsState) : Prop :=
  ∀ c ∈ s.cycles, ∀ x ∈ c, x ∈ keysOf g

theorem recordCycle_cyclesKeys (g : List (Int × List Int)) (node : Int)
    (s : DfsState) (hstack : ∀ x ∈ s.stack, x ∈ keysOf g)
    (hnode : node ∈ s.stack) (hc : cyclesKeys g s) :
    cyclesKeys g (recordCycle node s) := by
  simp only [recordCycle]
  split_ifs with hseen
  · exact hc
  · intro c hcm x hx
    simp only [List.mem_append, List.mem_singleton] at hcm
    rcases hcm with hcm | hcm
    · exact hc c hcm x hx
    · subst hcm
      have hx2 := canonicalize_subset _ x hx
      simp only [List.mem_append, List.mem_singleton] at hx2
      rcases hx2 with hx2 | hx2
      · exact hstack x (List.drop_subset _ _ hx2)
      · subst hx2
        exact hstack x hnode

theorem dfs_cyclesKeys (g : List (Int × List Int)) :
    ∀ fuel node s, (∀ x ∈ s.stack, x ∈ keysOf g) → cyclesKeys g s →
      cyclesKeys g (dfs g fuel node s) := by
  intro fuel
  induction fuel with
  | zero => intro node s _ hc; exact hc
  | succ fuel ih =>
      intro node s hstack hc
      simp only [dfs]
      split_ifs with h1 h2
      · exact recordCycle_cyclesKeys g node s hstack h1 hc
      · exact hc
      · have hfold := foldl_inv (fun acc nb => dfs g fuel nb acc)
          (fun s' => cyclesKeys g s' ∧ s'.stack = s.stack ++ [node])
          (lookupD g node)
          { s with visited := node :: s.visited, stack := s.stack ++ [node] }
          (fun nb hnb s' hs' => by
            refine ⟨ih nb s' ?_ hs'.1, by rw [dfs_stack, hs'.2]⟩
            intro x hxs
            rw [hs'.2] at hxs
            simp only [List.mem_append, List.mem_singleton] at hxs
            rcases hxs with hxs | hxs
            · exact hstack x hxs
            · subst hxs
              exact lookupD_mem_keys g x nb hnb)
          ⟨hc, rfl⟩
        exact hfold.1

theorem upsert_keys (g : List (Int × List Int)) (k : Int) (v : List Int) :
    ∀ y ∈ keysOf (upsert g k v), y ∈ keysOf g ∨ y = k := by
  induction g with
  | nil => intro y hy; simp [upsert, keysOf] at hy; exact Or.inr hy
  | cons e rest ih =>
      intro y hy
      simp only [upsert] at hy
      split_ifs at hy with he
      · simp only [keysOf, List.map_cons, List.mem_cons] at hy ⊢
        rcases hy with hy | hy
        · exact Or.inr hy
        · exact Or.inl (Or.inr hy)
      · simp only [keysOf, List.map_cons, List.mem_cons] at hy ⊢
        rcases hy with hy | hy
        · exact Or.inl (Or.inl hy)
        · rcases ih y hy with h | h
          · exact Or.inl (Or.inr h)
          · exact Or.inr h

theorem buildGraph_keys_sub (tasks : List TaskDict) :
    ∀ y ∈ keysOf (buildGraph tasks), y ∈ taskIds tasks := by
  have := foldl_inv
    (fun g it => upsert g (tidOf it.1 it.2)
      (dedupKeepFirst (it.2.dependencies.getD [])))
    (fun g => ∀ y ∈ keysOf g, y ∈ taskIds tasks) tasks.enum []
    (fun it hit g hg y hy => by
      rcases upsert_keys g (tidOf it.1 it.2)
          (dedupKeepFirst (it.2.dependencies.getD [])) y hy with h | h
      · exact hg y h
      · subst h
        exact List.mem_map.mpr ⟨it, hit, rfl⟩)
    (by intro y hy; simp [keysOf] at hy)
  exact this

end DfsLemmas

/-- C10: every id appearing in any cycle reported by
`detect_circular_dependencies` is the id of some task of the batch
(explicit or positionally assigned); in particular a dependency on an id
belonging to no task never occurs in a reported cycle. -/
theorem detect_cycle_ids_are_task_ids (tasks : List TaskDict)
    (c : List Int) (x : Int) (hc : c ∈ detect_circular_dependencies tasks)
    (hx : x ∈ c) : x ∈ taskIds tasks := by
  have hfinal : cyclesKeys (buildGraph tasks)
      ((keysOf (buildGraph tasks)).foldl
        (fun s n => if n ∈ s.visited then s
          else dfs (buildGraph tasks) (fuelFor (buildGraph tasks)) n s)
        ⟨[], [], [], []⟩)
      ∧ ((keysOf (buildGraph tasks)).foldl
        (fun s n => if n ∈ s.visited then s
          else dfs (buildGraph tasks) (fuelFor (buildGraph tasks)) n s)
        ⟨[], [], [], []⟩).stack = [] := by
    refine foldl_inv _ (fun s => cyclesKeys (buildGraph tasks) s ∧ s.stack = [])
      _ _ (fun n _ s hs => ?_) ⟨by intro c hc; simp at hc, rfl⟩
    split_ifs with hv
    · exact hs
    · refine ⟨dfs_cyclesKeys _ _ n s ?_ hs.1, by rw [dfs_stack, hs.2]⟩
      intro y hy
      rw [hs.2] at hy
      exact absurd hy (List.not_mem_nil y)
  have hmem := hfinal.1 c hc x hx
  exact buildGraph_keys_sub tasks x hmem

/-- Witness for C10: the only id in the reported self-cycle of a batch with
a dangling dependency (99) is the id of the batch's single task. -/
theorem detect_cycle_ids_are_task_ids_witness :
    (1 : Int) ∈ taskIds [mkTask 1 [1, 99]] :=
  detect_cycle_ids_are_task_ids [mkTask 1 [1, 99]] [1, 1] 1 (by decide) (by decide)

/-- A concrete test task for the explanation builder: due tomorrow, high
importance, low effort, one dependency. -/
def taskSuggest : TaskDict :=
  { id := some 1, title := "s", due_date := .dateObj 1,
    estimated_hours := some (.num 1), importance := some (.num 9),
    dependencies := some [2] }

/-- Witness for C9 at a concrete task whose phrases all apply. -/
theorem explanation_matches_spec_witness :
    explanation_for noParse 0 taskSuggest
      = .ok (specExplanation ((_parse_date_safe noParse taskSuggest.due_date).map
          (fun d => d - 0)) 9 taskSuggest.estimated_hours
          (taskSuggest.dependencies.getD []).length)
    ∧ (explanation_for noParse 0 taskSuggest = .ok "Balanced factors"
        ↔ specPhrases ((_parse_date_safe noParse taskSuggest.due_date).map
            (fun d => d - 0)) 9 taskSuggest.estimated_hours
            (taskSuggest.dependencies.getD []).length = []) :=
  explanation_matches_spec noParse 0 taskSuggest 9 rfl

/-! ### Soundness and completeness of the cycle detector

The detector reports at least one cycle exactly when the built dependency
graph has a cycle.  Soundness follows from the DFS stack being a path of
graph edges.  For completeness, `dfs2` below instruments the search with
the order in which nodes finish; when no back edge is ever found, that
order is a topological order, so the graph is acyclic. -/

/-- The edge relation of an adjacency map. -/
def gEdge (g : List (Int × List Int)) (a b : Int) : Prop := b ∈ lookupD g a

/-- The dependency graph has at least one (directed) cycle. -/
def hasCycle (g : List (Int × List Int)) : Prop :=
  ∃ a, Relation.TransGen (gEdge g) a a

section DetectorSoundness

theorem chain'_mem_last {r : Int → Int → Prop} :
    ∀ (l : List Int) (a tl : Int), List.Chain' r l → a ∈ l →
      l.getLast? = some tl → Relation.ReflTransGen r a tl := by
  intro l
  induction l with
  | nil => intro a tl _ ha _; exact absurd ha (List.not_mem_nil a)
  | cons x xs ih =>
      intro a tl hch ha hlast
      rcases xs with _ | ⟨y, ys⟩
      · simp at ha hlast
        subst ha
        subst hlast
        exact Relation.ReflTransGen.refl
      · have hch1 : r x y := (List.chain'_cons.mp hch).1
        have hch2 : List.Chain' r (y :: ys) := (List.chain'_cons.mp hch).2
        have hlast2 : (y :: ys).getLast? = some tl := by
          rw [List.getLast?_cons_cons] at hlast
          exact hlast
        rcases List.mem_cons.mp ha with rfl | ha2
        · exact Relation.ReflTransGen.head hch1
            (ih y tl hch2 (List.mem_cons_self y ys) hlast2)
        · exact ih a tl hch2 ha2 hlast2

theorem recordCycle_cycles_ne (node : Int) (s : DfsState)
    (hsync : s.cycles = [] ↔ s.seen_cycles = []) :
    (recordCycle node s).cycles ≠ [] := by
  simp only [recordCycle]
  split_ifs with hseen
  · intro hc
    have : s.seen_cycles = [] := hsync.mp hc
    rw [this] at hseen
    exact absurd hseen (List.not_mem_nil _)
  · simp

theorem recordCycle_sync (node : Int) (s : DfsState)
    (hsync : s.cycles = [] ↔ s.seen_cycles = []) :
    (recordCycle node s).cycles = [] ↔ (recordCycle node s).seen_cycles = [] := by
  simp only [recordCycle]
  split_ifs with hseen
  · exact hsync
  · simp

theorem dfs_sync (g : List (Int × List Int)) :
    ∀ fuel node s, (s.cycles = [] ↔ s.seen_cycles = []) →
      ((dfs g fuel node s).cycles = [] ↔ (dfs g fuel node s).seen_cycles = []) := by
  intro fuel
  induction fuel with
  | zero => intro node s h; exact h
  | succ fuel ih =>
      intro node s h
      simp only [dfs]
      split_ifs with h1 h2
      · exact recordCycle_sync node s h
      · exact h
      · exact foldl_inv (fun acc nb => dfs g fuel nb acc)
          (fun s' => s'.cycles = [] ↔ s'.seen_cycles = []) (lookupD g node)
          { s with visited := node :: s.visited, stack := s.stack ++ [node] }
          (fun nb _ s' hs' => ih nb s' hs') h

theorem dfs_cycles_ne_mono (g : List (Int × List Int)) :
    ∀ fuel node s, s.cycles ≠ [] → (dfs g fuel node s).cycles ≠ [] := by
  intro fuel
  induction fuel with
  | zero => intro node s h; exact h
  | succ fuel ih =>
      intro node s h
      simp only [dfs]
      split_ifs with h1 h2
      · simp only [recordCycle]
        split_ifs with hseen
        · exact h
        · simp
      · exact h
      · exact foldl_inv (fun acc nb => dfs g fuel nb acc)
          (fun s' => s'.cycles ≠ []) (lookupD g node)
          { s with visited := node :: s.visited, stack := s.stack ++ [node] }
          (fun nb _ s' hs' => ih nb s' hs') h

theorem dfs_sound (g : List (Int × List Int)) :
    ∀ fuel node s,
      List.Chain' (gEdge g) s.stack →
      (s.stack = [] ∨ ∃ tl, s.stack.getLast? = some tl ∧ gEdge g tl node) →
      (s.cycles = [] ↔ s.seen_cycles = []) →
      (s.cycles ≠ [] → hasCycle g) →
      ((dfs g fuel node s).cycles ≠ [] → hasCycle g) := by
  intro fuel
  induction fuel with
  | zero => intro node s _ _ _ hc; exact hc
  | succ fuel ih =>
      intro node s hch hctx hsync hc
      simp only [dfs]
      split_ifs with h1 h2
      · intro _
        rcases hctx with hnil | ⟨tl, hlast, hedge⟩
        · rw [hnil] at h1
          exact absurd h1 (List.not_mem_nil node)
        · exact ⟨node, Relation.TransGen.tail'
            (chain'_mem_last s.stack node tl hch h1 hlast) hedge⟩
      · exact hc
      · have hch' : List.Chain' (gEdge g) (s.stack ++ [node]) := by
          rw [List.chain'_append]
          refine ⟨hch, List.chain'_singleton node, ?_⟩
          intro x hx y hy
          simp only [List.head?_cons, Option.mem_def, Option.some.injEq] at hy
          subst hy
          rcases hctx with hnil | ⟨tl, hlast, hedge⟩
          · rw [hnil] at hx
            simp at hx
          · rw [hlast] at hx
            simp only [Option.mem_def, Option.some.injEq] at hx
            subst hx
            exact hedge
        have hfold := foldl_inv (fun acc nb => dfs g fuel nb acc)
          (fun s' => s'.stack = s.stack ++ [node]
            ∧ (s'.cycles = [] ↔ s'.seen_cycles = [])
            ∧ (s'.cycles ≠ [] → hasCycle g))
          (lookupD g node)
          { s with visited := node :: s.visited, stack := s.stack ++ [node] }
          (fun nb hnb s' hs' => by
            refine ⟨by rw [dfs_stack, hs'.1], dfs_sync g fuel nb s' hs'.2.1, ?_⟩
            refine ih nb s' ?_ ?_ hs'.2.1 hs'.2.2
            · rw [hs'.1]; exact hch'
            · rw [hs'.1]
              exact Or.inr ⟨node, List.getLast?_concat _, hnb⟩)
          ⟨rfl, hsync, hc⟩
        exact hfold.2.2

end DetectorSoundness

theorem detect_sound (tasks : List TaskDict)
    (h : detect_circular_dependencies tasks ≠ []) :
    hasCycle (buildGraph tasks) := by
  have hfold := foldl_inv
    (fun s n => if n ∈ s.visited then s
      else dfs (buildGraph tasks) (fuelFor (buildGraph tasks)) n s)
    (fun s => s.stack = [] ∧ (s.cycles = [] ↔ s.seen_cycles = [])
      ∧ (s.cycles ≠ [] → hasCycle (buildGraph tasks)))
    (keysOf (buildGraph tasks)) ⟨[], [], [], []⟩
    (fun n _ s hs => by
      dsimp only
      split_ifs with hv
      · exact hs
      · refine ⟨by rw [dfs_stack, hs.1],
          dfs_sync _ _ n s hs.2.1, ?_⟩
        refine dfs_sound _ _ n s ?_ (Or.inl hs.1) hs.2.1 hs.2.2
        rw [hs.1]
        exact List.chain'_nil)
    ⟨rfl, by simp, by intro hc; exact absurd rfl hc⟩
  exact hfold.2.2 h

section DetectorCompleteness

/-- The detector state instrumented with the order in which nodes finish
(are popped off the stack); erasing the extra field recovers `DfsState`. -/
structure DfsState2 where
  visited : List Int
  stack : List Int
  cycles : List (List Int)
  seen_cycles : List (List Int)
  finished : List Int

/-- Forget the instrumentation. -/
def erase2 (s : DfsState2) : DfsState :=
  ⟨s.visited, s.stack, s.cycles, s.seen_cycles⟩

/-- `recordCycle` on the instrumented state. -/
def recordCycle2 (node : Int) (s : DfsState2) : DfsState2 :=
  let cycle := s.stack.drop (idxOfZ s.stack node) ++ [node]
  let ordered := canonicalize cycle
  if ordered ∈ s.seen_cycles then s
  else { s with seen_cycles := ordered :: s.seen_cycles,
                cycles := s.cycles ++ [ordered] }

/-- `dfs` on the instrumented state: identical, except that the node being
popped is also appended to `finished`. -/
def dfs2 (g : List (Int × List Int)) : Nat → Int → DfsState2 → DfsState2
  | 0, _, s => s
  | fuel + 1, node, s =>
    if node ∈ s.stack then recordCycle2 node s
    else if node ∈ s.visited then s
    else
      let s1 : DfsState2 :=
        { s with visited := node :: s.visited, stack := s.stack ++ [node] }
      let s2 := (lookupD g node).foldl (fun acc nb => dfs2 g fuel nb acc) s1
      { s2 with stack := s2.stack.dropLast, finished := s2.finished ++ [node] }

theorem erase2_recordCycle2 (node : Int) (s : DfsState2) :
    erase2 (recordCycle2 node s) = recordCycle node (erase2 s) := by
  simp only [recordCycle2, recordCycle, erase2]
  split_ifs <;> rfl

theorem erase2_dfs2 (g : List (Int × List Int)) :
    ∀ fuel node s, erase2 (dfs2 g fuel node s) = dfs g fuel node (erase2 s) := by
  intro fuel
  induction fuel with
  | zero => intro node s; rfl
  | succ fuel ih =>
      intro node s
      have hfold : ∀ (l : List Int) (s' : DfsState2),
          erase2 (l.foldl (fun acc nb => dfs2 g fuel nb acc) s')
            = l.foldl (fun acc nb => dfs g fuel nb acc) (erase2 s') := by
        intro l
        induction l with
        | nil => intro s'; rfl
        | cons a as ihl =>
            intro s'
            simp only [List.foldl_cons]
            rw [ihl (dfs2 g fuel a s'), ih a s']
      simp only [dfs, dfs2, erase2]
      split_ifs with h1 h2
      · exact erase2_recordCycle2 node s
      · rfl
      · have h2' := hfold (lookupD g node)
          { s with visited := node :: s.visited, stack := s.stack ++ [node] }
        have hv := congrArg DfsState.visited h2'
        have hst := congrArg DfsState.stack h2'
        have hc := congrArg DfsState.cycles h2'
        have hsn := congrArg DfsState.seen_cycles h2'
        simp only [erase2] at hv hst hc hsn ⊢
        congr 1 <;> first | exact hv | (rw [hst]) | exact hc | exact hsn

theorem dfs2_stack (g : List (Int × List Int)) :
    ∀ fuel node s, (dfs2 g fuel node s).stack = s.stack := by
  intro fuel node s
  have := congrArg DfsState.stack (erase2_dfs2 g fuel node s)
  simp only [erase2] at this
  rw [this, dfs_stack]

theorem recordCycle2_visited (node : Int) (s : DfsState2) :
    (recordCycle2 node s).visited = s.visited := by
  simp only [recordCycle2]
  split_ifs <;> rfl

theorem recordCycle2_finished (node : Int) (s : DfsState2) :
    (recordCycle2 node s).finished = s.finished := by
  simp only [recordCycle2]
  split_ifs <;> rfl

theorem dfs2_visited_mono (g : List (Int × List Int)) :
    ∀ fuel node s x, x ∈ s.visited → x ∈ (dfs2 g fuel node s).visited := by
  intro fuel
  induction fuel with
  | zero => intro node s x hx; exact hx
  | succ fuel ih =>
      intro node s x hx
      simp only [dfs2]
      split_ifs with h1 h2
      · rw [recordCycle2_visited]; exact hx
      · exact hx
      · exact foldl_inv (fun acc nb => dfs2 g fuel nb acc)
          (fun s' => x ∈ s'.visited) (lookupD g node)
          { s with visited := node :: s.visited, stack := s.stack ++ [node] }
          (fun nb _ s' hs' => ih nb s' x hs') (by simp [hx])

theorem dfs2_finished_append (g : List (Int × List Int)) :
    ∀ fuel node s, ∃ l, (dfs2 g fuel node s).finished = s.finished ++ l := by
  intro fuel
  induction fuel with
  | zero => intro node s; exact ⟨[], by simp [dfs2]⟩
  | succ fuel ih =>
      intro node s
      simp only [dfs2]
      split_ifs with h1 h2
      · exact ⟨[], by rw [recordCycle2_finished]; simp⟩
      · exact ⟨[], by simp⟩
      · have hfold := foldl_inv (fun acc nb => dfs2 g fuel nb acc)
          (fun s' => ∃ l, s'.finished = s.finished ++ l) (lookupD g node)
          { s with visited := node :: s.visited, stack := s.stack ++ [node] }
          (fun nb _ s' hs' => by
            obtain ⟨l1, hl1⟩ := hs'
            obtain ⟨l2, hl2⟩ := ih nb s'
            exact ⟨l1 ++ l2, by rw [hl2, hl1, List.append_assoc]⟩)
          ⟨[], by simp⟩
        obtain ⟨l, hl⟩ := hfold
        exact ⟨l ++ [node], by simp only [hl, List.append_assoc]⟩

theorem dfs2_finished_mono (g : List (Int × List Int)) (fuel : Nat)
    (node : Int) (s : DfsState2) (x : Int) (hx : x ∈ s.finished) :
    x ∈ (dfs2 g fuel node s).finished := by
  obtain ⟨l, hl⟩ := dfs2_finished_append g fuel node s
  rw [hl]
  exact List.mem_append_left _ hx

theorem dfs2_cycles_ne_mono (g : List (Int × List Int)) (fuel : Nat)
    (node : Int) (s : DfsState2) (h : s.cycles ≠ []) :
    (dfs2 g fuel node s).cycles ≠ [] := by
  have := congrArg DfsState.cycles (erase2_dfs2 g fuel node s)
  simp only [erase2] at this
  rw [this]
  exact dfs_cycles_ne_mono g fuel node (erase2 s) h

theorem dfs2_sync (g : List (Int × List Int)) (fuel : Nat) (node : Int)
    (s : DfsState2) (h : s.cycles = [] ↔ s.seen_cycles = []) :
    ((dfs2 g fuel node s).cycles = [] ↔ (dfs2 g fuel node s).seen_cycles = []) := by
  have hc := congrArg DfsState.cycles (erase2_dfs2 g fuel node s)
  have hs := congrArg DfsState.seen_cycles (erase2_dfs2 g fuel node s)
  simp only [erase2] at hc hs
  rw [hc, hs]
  exact dfs_sync g fuel node (erase2 s) h

theorem foldl_dfs2_stack (g : List (Int × List Int)) (fuel : Nat)
    (l : List Int) (s : DfsState2) :
    (l.foldl (fun acc nb => dfs2 g fuel nb acc) s).stack = s.stack :=
  foldl_inv (fun acc nb => dfs2 g fuel nb acc) (fun s' => s'.stack = s.stack)
    l s (fun nb _ s' hs' => by
      show (dfs2 g fuel nb s').stack = s.stack
      rw [dfs2_stack, hs']) rfl

theorem foldl_dfs2_finished_mono (g : List (Int × List Int)) (fuel : Nat)
    (l : List Int) (s : DfsState2) (x : Int) (hx : x ∈ s.finished) :
    x ∈ (l.foldl (fun acc nb => dfs2 g fuel nb acc) s).finished :=
  foldl_inv (fun acc nb => dfs2 g fuel nb acc) (fun s' => x ∈ s'.finished)
    l s (fun nb _ s' hs' => dfs2_finished_mono g fuel nb s' x hs') hx

theorem foldl_dfs2_cycles_ne (g : List (Int × List Int)) (fuel : Nat)
    (l : List Int) (s : DfsState2) (h : s.cycles ≠ []) :
    (l.foldl (fun acc nb => dfs2 g fuel nb acc) s).cycles ≠ [] :=
  foldl_inv (fun acc nb => dfs2 g fuel nb acc) (fun s' => s'.cycles ≠ [])
    l s (fun nb _ s' hs' => dfs2_cycles_ne_mono g fuel nb s' hs') h

theorem idxOfZ_append_left :
    ∀ (l l' : List Int) (x : Int), x ∈ l → idxOfZ (l ++ l') x = idxOfZ l x := by
  intro l
  induction l with
  | nil => intro l' x hx; exact absurd hx (List.not_mem_nil x)
  | cons a as ih =>
      intro l' x hx
      show idxOfZ (a :: (as ++ l')) x = idxOfZ (a :: as) x
      simp only [idxOfZ]
      split_ifs with ha
      · rfl
      · have hx2 : x ∈ as := by
          rcases List.mem_cons.mp hx with rfl | h
          · exact absurd rfl ha
          · exact h
        rw [ih l' x hx2]

theorem idxOfZ_append_new :
    ∀ (l : List Int) (x : Int), x ∉ l → idxOfZ (l ++ [x]) x = l.length := by
  intro l
  induction l with
  | nil => intro x _; simp [idxOfZ]
  | cons a as ih =>
      intro x hx
      show idxOfZ (a :: (as ++ [x])) x = (a :: as).length
      simp only [idxOfZ, List.length_cons]
      split_ifs with ha
      · exact absurd (ha ▸ List.mem_cons_self a as) hx
      · rw [ih x (fun h => hx (List.mem_cons_of_mem a h))]

theorem idxOfZ_lt_length :
    ∀ (l : List Int) (x : Int), x ∈ l → idxOfZ l x < l.length := by
  intro l
  induction l with
  | nil => intro x hx; exact absurd hx (List.not_mem_nil x)
  | cons a as ih =>
      intro x hx
      simp only [idxOfZ, List.length_cons]
      split_ifs with ha
      · omega
      · have hx2 : x ∈ as := by
          rcases List.mem_cons.mp hx with rfl | h
          · exact absurd rfl ha
          · exact h
        have := ih x hx2
        omega

theorem univ_mono (e : Int × List Int) (rest : List (Int × List Int)) :
    ∀ x ∈ univOf rest, x ∈ univOf (e :: rest) := by
  intro x hx
  rcases List.mem_append.mp hx with hk | hf
  · refine List.mem_append_left _ ?_
    simp only [keysOf, List.map_cons, List.mem_cons]
    exact Or.inr hk
  · refine List.mem_append_right _ ?_
    simp only [List.map_cons, List.flatten_cons, List.mem_append]
    exact Or.inr hf

theorem lookupD_sub_univ :
    ∀ (g : List (Int × List Int)) (n nb : Int), nb ∈ lookupD g n →
      nb ∈ univOf g := by
  intro g
  induction g with
  | nil => intro n nb h; exact absurd h (List.not_mem_nil nb)
  | cons e rest ih =>
      intro n nb h
      simp only [lookupD] at h
      split_ifs at h with he
      · simp only [univOf, keysOf, List.mem_append, List.mem_flatten,
          List.mem_map, List.map_cons, List.flatten_cons, List.mem_cons]
        exact Or.inr (Or.inl h)
      · exact univ_mono e rest nb (ih n nb h)

theorem keys_sub_univ (g : List (Int × List Int)) (n : Int)
    (h : n ∈ keysOf g) : n ∈ univOf g :=
  List.mem_append_left _ h

/-- Number of universe nodes not yet visited: the DFS recursion-depth
measure. -/
def dU (g : List (Int × List Int)) (visited : List Int) : Nat :=
  ((univOf g).dedup.filter (fun x => decide (x ∉ visited))).length

theorem dU_mono (g : List (Int × List Int)) (v v' : List Int)
    (h : ∀ x, x ∈ v → x ∈ v') : dU g v' ≤ dU g v :=
  (List.monotone_filter_right _ (fun a ha => by
    simp only [decide_eq_true_eq] at ha ⊢
    intro hav
    exact ha (h a hav))).length_le

theorem dU_strict (g : List (Int × List Int)) (v : List Int) (node : Int)
    (hn : node ∈ univOf g) (hv : node ∉ v) : dU g (node :: v) < dU g v := by
  have hsub : List.Sublist ((univOf g).dedup.filter (fun x => decide (x ∉ node :: v)))
      ((univOf g).dedup.filter (fun x => decide (x ∉ v))) :=
    List.monotone_filter_right _ (fun a ha => by
      simp only [decide_eq_true_eq, List.mem_cons] at ha ⊢
      intro hav
      exact ha (Or.inr hav))
  have hmem : node ∈ (univOf g).dedup.filter (fun x => decide (x ∉ v)) :=
    List.mem_filter.mpr ⟨List.mem_dedup.mpr hn, by simpa using hv⟩
  have hnot : node ∉ (univOf g).dedup.filter (fun x => decide (x ∉ node :: v)) := by
    intro hc
    have := (List.mem_filter.mp hc).2
    simp at this
  rcases lt_or_eq_of_le hsub.length_le with hlt | heq
  · exact hlt
  · exact absurd (hsub.eq_of_length heq ▸ hmem) hnot

theorem dU_le_bound (g : List (Int × List Int)) (v : List Int) :
    dU g v ≤ (univOf g).dedup.length :=
  List.length_filter_le _ _

/-- The completeness invariant of the instrumented search: `visited` is
exactly `finished` plus the stack, both without duplicates and disjoint,
the cycle list and the dedup set are empty together, and every edge out of
a finished node leads to an earlier-finished node unless a cycle has been
recorded. -/
structure GInv (g : List (Int × List Int)) (s : DfsState2) : Prop where
  vfs : ∀ x, x ∈ s.visited ↔ (x ∈ s.finished ∨ x ∈ s.stack)
  nodupF : s.finished.Nodup
  nodupS : s.stack.Nodup
  disj : ∀ x ∈ s.stack, x ∉ s.finished
  sync : s.cycles = [] ↔ s.seen_cycles = []
  edgeInv : ∀ a ∈ s.finished, ∀ b ∈ lookupD g a,
    (b ∈ s.finished ∧ idxOfZ s.finished b < idxOfZ s.finished a) ∨ s.cycles ≠ []

theorem recordCycle2_cycles_ne (node : Int) (s : DfsState2)
    (hsync : s.cycles = [] ↔ s.seen_cycles = []) :
    (recordCycle2 node s).cycles ≠ [] := by
  have hc := congrArg DfsState.cycles (erase2_recordCycle2 node s)
  simp only [erase2] at hc
  rw [hc]
  exact recordCycle_cycles_ne node (erase2 s) hsync

theorem recordCycle2_GInv (g : List (Int × List Int)) (node : Int)
    (s : DfsState2) (h : GInv g s) : GInv g (recordCycle2 node s) := by
  simp only [recordCycle2]
  split_ifs with hseen
  · exact h
  · refine ⟨h.vfs, h.nodupF, h.nodupS, h.disj, by simp, ?_⟩
    intro a ha b hb
    rcases h.edgeInv a ha b hb with ⟨hbf, hidx⟩ | hc
    · exact Or.inl ⟨hbf, hidx⟩
    · exact Or.inr (by simp)

theorem dfs2_main (g : List (Int × List Int)) :
    ∀ fuel node s, node ∈ univOf g → dU g s.visited + 1 ≤ fuel → GInv g s →
      GInv g (dfs2 g fuel node s)
      ∧ (node ∈ (dfs2 g fuel node s).finished
          ∨ (dfs2 g fuel node s).cycles ≠ []) := by
  intro fuel
  induction fuel with
  | zero => intro node s _ hf _; omega
  | succ fuel ih =>
      intro node s hn hf hinv
      simp only [dfs2]
      split_ifs with h1 h2
      · exact ⟨recordCycle2_GInv g node s hinv,
          Or.inr (recordCycle2_cycles_ne node s hinv.sync)⟩
      · refine ⟨hinv, Or.inl ?_⟩
        rcases (hinv.vfs node).mp h2 with hfin | hstk
        · exact hfin
        · exact absurd hstk h1
      · have hnodefin : node ∉ s.finished := fun hc =>
          h2 ((hinv.vfs node).mpr (Or.inl hc))
        have hinv1 : GInv g
            ⟨node :: s.visited, s.stack ++ [node], s.cycles, s.seen_cycles,
              s.finished⟩ := by
          refine ⟨?_, hinv.nodupF, ?_, ?_, hinv.sync, hinv.edgeInv⟩
          · intro x
            have hv := hinv.vfs x
            simp only [List.mem_cons, List.mem_append, List.mem_singleton,
              List.not_mem_nil, or_false]
            tauto
          · refine List.nodup_append.mpr
              ⟨hinv.nodupS, List.nodup_singleton node, ?_⟩
            intro a ha hb
            simp at hb
            subst hb
            exact h1 ha
          · intro x hx
            simp only [List.mem_append, List.mem_singleton, List.mem_cons,
              List.not_mem_nil, or_false] at hx
            rcases hx with hx | rfl
            · exact hinv.disj x hx
            · exact hnodefin
        have hdu : dU g (node :: s.visited) + 1 ≤ fuel := by
          have h3 := dU_strict g s.visited node hn h2
          omega
        have hstep : ∀ (l : List Int) (s' : DfsState2),
            (∀ nb ∈ l, nb ∈ univOf g) → dU g s'.visited + 1 ≤ fuel →
            GInv g s' →
            GInv g (l.foldl (fun acc nb => dfs2 g fuel nb acc) s')
            ∧ (∀ nb ∈ l,
                nb ∈ (l.foldl (fun acc nb => dfs2 g fuel nb acc) s').finished
                ∨ (l.foldl (fun acc nb => dfs2 g fuel nb acc) s').cycles ≠ []) := by
          intro l
          induction l with
          | nil =>
              intro s' _ _ hg
              exact ⟨hg, fun nb hnb => absurd hnb (List.not_mem_nil nb)⟩
          | cons a as ihl =>
              intro s' hl hf' hg
              simp only [List.foldl_cons]
              have hone := ih a s' (hl a (List.mem_cons_self a as)) hf' hg
              have hf2 : dU g (dfs2 g fuel a s').visited + 1 ≤ fuel := by
                have := dU_mono g s'.visited (dfs2 g fuel a s').visited
                  (fun x hx => dfs2_visited_mono g fuel a s' x hx)
                omega
              have hrest := ihl (dfs2 g fuel a s')
                (fun nb hnb => hl nb (List.mem_cons_of_mem a hnb)) hf2 hone.1
              refine ⟨hrest.1, ?_⟩
              intro nb hnb
              rcases List.mem_cons.mp hnb with rfl | hnb2
              · rcases hone.2 with hfin | hcyc
                · exact Or.inl (foldl_dfs2_finished_mono g fuel as _ nb hfin)
                · exact Or.inr (foldl_dfs2_cycles_ne g fuel as _ hcyc)
              · exact hrest.2 nb hnb2
        obtain ⟨hg2, hpost⟩ := hstep (lookupD g node)
          ⟨node :: s.visited, s.stack ++ [node], s.cycles, s.seen_cycles,
            s.finished⟩
          (fun nb hnb => lookupD_sub_univ g node nb hnb) hdu hinv1
        set s2 := (lookupD g node).foldl (fun acc nb => dfs2 g fuel nb acc)
          ⟨node :: s.visited, s.stack ++ [node], s.cycles, s.seen_cycles,
            s.finished⟩ with hs2
        have hstk2 : s2.stack = s.stack ++ [node] := by
          rw [hs2]
          exact foldl_dfs2_stack g fuel _ _
        have hdl : s2.stack.dropLast = s.stack := by
          rw [hstk2]
          exact List.dropLast_concat
        have hnode_stk : node ∈ s2.stack := by
          rw [hstk2]
          exact List.mem_append_right _ (List.mem_singleton.mpr rfl)
        have hnodefin2 : node ∉ s2.finished := hg2.disj node hnode_stk
        refine ⟨⟨?_, ?_, ?_, ?_, ?_, ?_⟩,
          Or.inl (List.mem_append_right _ (List.mem_singleton.mpr rfl))⟩
        · intro x
          dsimp only
          rw [hdl]
          have hv2 := hg2.vfs x
          rw [hstk2] at hv2
          simp only [List.mem_append, List.mem_singleton] at hv2 ⊢
          tauto
        · dsimp only
          refine List.nodup_append.mpr
            ⟨hg2.nodupF, List.nodup_singleton node, ?_⟩
          intro a ha hb
          simp at hb
          subst hb
          exact hnodefin2 ha
        · dsimp only
          rw [hdl]
          exact hinv.nodupS
        · dsimp only
          intro x hx hc
          rw [hdl] at hx
          rcases List.mem_append.mp hc with hcf | hcn
          · exact hg2.disj x (by rw [hstk2]; exact List.mem_append_left _ hx) hcf
          · simp at hcn
            subst hcn
            exact h1 hx
        · exact hg2.sync
        · dsimp only
          intro a ha b hb
          rcases List.mem_append.mp ha with haf | han
          · rcases hg2.edgeInv a haf b hb with ⟨hbf, hidx⟩ | hc
            · refine Or.inl ⟨List.mem_append_left _ hbf, ?_⟩
              rw [idxOfZ_append_left _ _ _ hbf, idxOfZ_append_left _ _ _ haf]
              exact hidx
            · exact Or.inr hc
          · simp at han
            subst han
            rcases hpost b hb with hbf | hc
            · refine Or.inl ⟨List.mem_append_left _ hbf, ?_⟩
              rw [idxOfZ_append_left _ _ _ hbf, idxOfZ_append_new _ _ hnodefin2]
              exact idxOfZ_lt_length _ _ hbf
            · exact Or.inr hc

/-- The per-root step of the detector's driver loop, instrumented. -/
def rootStep2 (g : List (Int × List Int)) (s : DfsState2) (n : Int) : DfsState2 :=
  if n ∈ s.visited then s else dfs2 g (fuelFor g) n s

/-- The per-root step of the detector's driver loop. -/
def rootStep (g : List (Int × List Int)) (s : DfsState) (n : Int) : DfsState :=
  if n ∈ s.visited then s else dfs g (fuelFor g) n s

theorem erase2_rootStep (g : List (Int × List Int)) (s : DfsState2) (n : Int) :
    erase2 (rootStep2 g s n) = rootStep g (erase2 s) n := by
  simp only [rootStep2, rootStep]
  by_cases hk : n ∈ s.visited
  · have h2 : n ∈ (erase2 s).visited := hk
    rw [if_pos hk, if_pos h2]
  · have h2 : n ∉ (erase2 s).visited := hk
    rw [if_neg hk, if_neg h2, erase2_dfs2]

theorem erase2_roots_fold (g : List (Int × List Int)) :
    ∀ (ks : List Int) (s : DfsState2),
      erase2 (ks.foldl (rootStep2 g) s) = ks.foldl (rootStep g) (erase2 s) := by
  intro ks
  induction ks with
  | nil => intro s; rfl
  | cons k ks ih =>
      intro s
      simp only [List.foldl_cons]
      rw [ih (rootStep2 g s k), erase2_rootStep]

theorem foldl_roots2_finished_mono (g : List (Int × List Int)) (ks : List Int)
    (s : DfsState2) (x : Int) (hx : x ∈ s.finished) :
    x ∈ (ks.foldl (rootStep2 g) s).finished :=
  foldl_inv (rootStep2 g) (fun s' => x ∈ s'.finished) ks s
    (fun n _ s' hs' => by
      show x ∈ (rootStep2 g s' n).finished
      simp only [rootStep2]
      split_ifs with hv
      · exact hs'
      · exact dfs2_finished_mono g (fuelFor g) n s' x hs') hx

theorem foldl_roots2_cycles_ne (g : List (Int × List Int)) (ks : List Int)
    (s : DfsState2) (h : s.cycles ≠ []) :
    (ks.foldl (rootStep2 g) s).cycles ≠ [] :=
  foldl_inv (rootStep2 g) (fun s' => s'.cycles ≠ []) ks s
    (fun n _ s' hs' => by
      show (rootStep2 g s' n).cycles ≠ []
      simp only [rootStep2]
      split_ifs with hv
      · exact hs'
      · exact dfs2_cycles_ne_mono g (fuelFor g) n s' hs') h

theorem roots2_inv (g : List (Int × List Int)) :
    ∀ (ks : List Int) (s : DfsState2),
      (∀ k ∈ ks, k ∈ univOf g) → GInv g s → s.stack = [] →
      GInv g (ks.foldl (rootStep2 g) s)
      ∧ (ks.foldl (rootStep2 g) s).stack = []
      ∧ ∀ k ∈ ks, k ∈ (ks.foldl (rootStep2 g) s).finished
          ∨ (ks.foldl (rootStep2 g) s).cycles ≠ [] := by
  intro ks
  induction ks with
  | nil =>
      intro s _ hg hst
      exact ⟨hg, hst, fun k hk => absurd hk (List.not_mem_nil k)⟩
  | cons k ks ih =>
      intro s hks hg hst
      simp only [List.foldl_cons]
      have hone : GInv g (rootStep2 g s k) ∧ (rootStep2 g s k).stack = []
          ∧ (k ∈ (rootStep2 g s k).finished ∨ (rootStep2 g s k).cycles ≠ []) := by
        simp only [rootStep2]
        split_ifs with hv
        · refine ⟨hg, hst, Or.inl ?_⟩
          rcases (hg.vfs k).mp hv with hf | hsk
          · exact hf
          · rw [hst] at hsk
            exact absurd hsk (List.not_mem_nil k)
        · have hfu : dU g s.visited + 1 ≤ fuelFor g := by
            have := dU_le_bound g s.visited
            simp only [fuelFor]
            omega
          have hm := dfs2_main g (fuelFor g) k s
            (hks k (List.mem_cons_self k ks)) hfu hg
          exact ⟨hm.1, by rw [dfs2_stack, hst], hm.2⟩
      have hrest := ih (rootStep2 g s k)
        (fun k' hk' => hks k' (List.mem_cons_of_mem k hk')) hone.1 hone.2.1
      refine ⟨hrest.1, hrest.2.1, ?_⟩
      intro k' hk'
      rcases List.mem_cons.mp hk' with rfl | hk2
      · rcases hone.2.2 with hfin | hcyc
        · exact Or.inl (foldl_roots2_finished_mono g ks _ k' hfin)
        · exact Or.inr (foldl_roots2_cycles_ne g ks _ hcyc)
      · exact hrest.2.2 k' hk2

theorem detect_eq_rootfold (tasks : List TaskDict) :
    detect_circular_dependencies tasks
      = ((keysOf (buildGraph tasks)).foldl (rootStep (buildGraph tasks))
          ⟨[], [], [], []⟩).cycles := rfl

theorem GInv_init (g : List (Int × List Int)) :
    GInv g ⟨[], [], [], [], []⟩ := by
  refine ⟨?_, ?_, ?_, ?_, ?_, ?_⟩ <;> simp

theorem detect_complete (tasks : List TaskDict)
    (h : hasCycle (buildGraph tasks)) :
    detect_circular_dependencies tasks ≠ [] := by
  intro hdet
  obtain ⟨a, ha⟩ := h
  have hroots := roots2_inv (buildGraph tasks) (keysOf (buildGraph tasks))
    ⟨[], [], [], [], []⟩ (fun k hk => keys_sub_univ _ k hk) (GInv_init _) rfl
  set sF := (keysOf (buildGraph tasks)).foldl (rootStep2 (buildGraph tasks))
    ⟨[], [], [], [], []⟩ with hsF
  have hcyc : sF.cycles = [] := by
    have hsim := erase2_roots_fold (buildGraph tasks)
      (keysOf (buildGraph tasks)) ⟨[], [], [], [], []⟩
    have hc := congrArg DfsState.cycles hsim
    simp only [erase2] at hc
    rw [hc, ← detect_eq_rootfold tasks]
    exact hdet
  have hkeysfin : ∀ k ∈ keysOf (buildGraph tasks), k ∈ sF.finished := by
    intro k hk
    rcases hroots.2.2 k hk with hf | hc
    · exact hf
    · exact absurd hcyc hc
  have hedge : ∀ x y, gEdge (buildGraph tasks) x y →
      y ∈ sF.finished ∧ idxOfZ sF.finished y < idxOfZ sF.finished x := by
    intro x y hxy
    have hx : x ∈ sF.finished := hkeysfin x (lookupD_mem_keys _ x y hxy)
    rcases hroots.1.edgeInv x hx y hxy with hok | hc
    · exact hok
    · exact absurd hcyc hc
  have hrank : ∀ x y, Relation.TransGen (gEdge (buildGraph tasks)) x y →
      idxOfZ sF.finished y < idxOfZ sF.finished x := by
    intro x y hxy
    induction hxy with
    | single h1 => exact (hedge _ _ h1).2
    | tail _ h2 ih =>
        have h3 := (hedge _ _ h2).2
        omega
  exact absurd (hrank a a ha) (lt_irrefl _)

end DetectorCompleteness

/-- The detector reports at least one cycle exactly when the built
dependency graph has a directed cycle. -/
theorem detect_iff_hasCycle (tasks : List TaskDict) :
    detect_circular_dependencies tasks ≠ [] ↔ hasCycle (buildGraph tasks) :=
  ⟨detect_sound tasks, detect_complete tasks⟩

/-! ### The analyze endpoint (C7) -/

/-- A task that passed the request serializer: the due date normalises, the
hours are a non-negative number, the importance is a number. -/
def ValidTask (p : String → Option Int) (t : TaskDict) : Prop :=
  (∃ d, _ensure_date p t.due_date = .ok d)
  ∧ (∃ h : ℚ, t.estimated_hours = some (.num h) ∧ 0 ≤ h)
  ∧ (∃ i : ℚ, t.importance = some (.num i))

theorem epure {ε α : Type} (a : α) : (pure a : Except ε α) = .ok a := rfl

theorem calculate_priority_ok (p : String → Option Int) (today : Int)
    (t : TaskDict) (ts : List TaskDict) (w : Weights) (hv : ValidTask p t) :
    ∃ q, calculate_priority p today t ts w = .ok q := by
  obtain ⟨⟨d, hd⟩, ⟨h, hh, hpos⟩, ⟨i, hi⟩⟩ := hv
  exact ⟨_, (calculate_priority_formula p today t ts ts w d i h hd
    (by rw [hi]; rfl) (by rw [hh]; rfl) hpos).1⟩

theorem score_list_ok (p : String → Option Int) (today : Int)
    (all : List TaskDict) (w : Weights) :
    ∀ ts, (∀ t ∈ ts, ValidTask p t) →
      ∃ scored, score_list p today all w ts = .ok scored
        ∧ scored.length = ts.length := by
  intro ts
  induction ts with
  | nil => exact fun _ => ⟨[], rfl, rfl⟩
  | cons t ts ih =>
      intro hv
      obtain ⟨q, hq⟩ :=
        calculate_priority_ok p today t all w (hv t (List.mem_cons_self t ts))
      obtain ⟨rest, hrest, hlen⟩ :=
        ih (fun t' ht' => hv t' (List.mem_cons_of_mem t ht'))
      refine ⟨(t, q) :: rest, ?_, by simp [hlen]⟩
      simp [score_list, hq, hrest, ebind_ok, epure]

theorem assign_ids_length (tasks : List TaskDict) :
    (assign_ids tasks).length = tasks.length := by
  simp [assign_ids]

/-- C7: the analyze operation returns a 400 error carrying exactly the
detector's cycle list, and no scored results, if and only if the batch's
dependency graph (after id assignment) has at least one cycle; otherwise it
returns exactly one scored entry per input task (a permutation of the
scored batch), sorted in descending order of score. -/
theorem analyze_tasks_spec (p : String → Option Int) (today : Int)
    (tasks : List TaskDict)
    (hval : ∀ t ∈ assign_ids tasks, ValidTask p t) :
    ((∃ cs, analyze_tasks p today tasks = .error (.circular cs)
        ∧ cs = detect_circular_dependencies (assign_ids tasks) ∧ cs ≠ [])
      ↔ hasCycle (buildGraph (assign_ids tasks)))
    ∧ (¬ hasCycle (buildGraph (assign_ids tasks)) →
        ∃ res scored,
          analyze_tasks p today tasks = .ok res
          ∧ score_tasks p today (assign_ids tasks) DEFAULT_WEIGHTS = .ok scored
          ∧ res.Perm scored
          ∧ res.length = tasks.length
          ∧ List.Sorted (fun a b : TaskDict × ℚ => b.2 ≤ a.2) res) := by
  by_cases hdet : detect_circular_dependencies (assign_ids tasks) = []
  · have hnc : ¬ hasCycle (buildGraph (assign_ids tasks)) := fun hc =>
      absurd hdet ((detect_iff_hasCycle _).mpr hc)
    obtain ⟨scored, hscored, hslen⟩ := score_list_ok p today (assign_ids tasks)
      DEFAULT_WEIGHTS (assign_ids tasks) hval
    have hA : analyze_tasks p today tasks
        = .ok (scored.mergeSort (fun a b => decide (b.2 ≤ a.2))) := by
      simp only [analyze_tasks, hdet, if_pos]
      rw [show score_tasks p today (assign_ids tasks) DEFAULT_WEIGHTS
        = score_list p today (assign_ids tasks) DEFAULT_WEIGHTS (assign_ids tasks)
        from rfl, hscored]
    refine ⟨⟨?_, fun hc => absurd hc hnc⟩, fun _ => ?_⟩
    · rintro ⟨cs, hcs, _, _⟩
      rw [hA] at hcs
      exact absurd hcs (by simp)
    · refine ⟨scored.mergeSort (fun a b => decide (b.2 ≤ a.2)), scored,
        hA, ?_, List.mergeSort_perm scored _, ?_, ?_⟩
      · exact hscored
      · rw [List.length_mergeSort, hslen, assign_ids_length]
      · have hs := @List.sorted_mergeSort (TaskDict × ℚ)
          (fun a b => decide (b.2 ≤ a.2))
          (fun a b c hab hbc => by
            simp only [decide_eq_true_eq] at hab hbc ⊢
            exact le_trans hbc hab)
          (fun a b => by
            simp only [Bool.or_eq_true, decide_eq_true_eq]
            exact le_total b.2 a.2)
          scored
        exact hs.imp (fun h => of_decide_eq_true h)
  · have hc : hasCycle (buildGraph (assign_ids tasks)) :=
      (detect_iff_hasCycle _).mp hdet
    have hA : analyze_tasks p today tasks
        = .error (.circular (detect_circular_dependencies (assign_ids tasks))) := by
      simp only [analyze_tasks, hdet, if_neg]
      simp [hdet]
    exact ⟨⟨fun _ => hc,
      fun _ => ⟨detect_circular_dependencies (assign_ids tasks), hA, rfl, hdet⟩⟩,
      fun hn => absurd hc hn⟩

/-- Witness for C7 at a concrete acyclic single-task batch. -/
theorem analyze_tasks_spec_witness :
    ((∃ cs, analyze_tasks noParse 0 [taskGood] = .error (.circular cs)
        ∧ cs = detect_circular_dependencies (assign_ids [taskGood]) ∧ cs ≠ [])
      ↔ hasCycle (buildGraph (assign_ids [taskGood])))
    ∧ (¬ hasCycle (buildGraph (assign_ids [taskGood])) →
        ∃ res scored,
          analyze_tasks noParse 0 [taskGood] = .ok res
          ∧ score_tasks noParse 0 (assign_ids [taskGood]) DEFAULT_WEIGHTS
              = .ok scored
          ∧ res.Perm scored
          ∧ res.length = ([taskGood] : List TaskDict).length
          ∧ List.Sorted (fun a b : TaskDict × ℚ => b.2 ≤ a.2) res) :=
  analyze_tasks_spec noParse 0 [taskGood] (by
    intro t ht
    have he : assign_ids [taskGood] = [{ taskGood with id := some 1 }] := rfl
    rw [he] at ht
    simp only [List.mem_cons, List.not_mem_nil, or_false] at ht
    subst ht
    exact ⟨⟨2, rfl⟩, ⟨2, rfl, by norm_num⟩, ⟨8, rfl⟩⟩)

end TaskAnalyzer
